import Mathlib

/-!
Verification of the `grace` Go package (src/task.go): a chainable `Task`
abstraction executed under a cancellable context.

The embedding is shallow and deterministic per run:

* Go `error` values become the inductive `GoError`; identity of an error value
  (as used by `errors.Is`-style comparisons against sentinels such as
  `context.Canceled`) is structural equality of `GoError`.
* A Go `Step` (`func() error`) is opaque, side-effecting caller code.  For one
  run we model a step by the observable events it emits when invoked and by how
  it terminates: a normal return (`nil` or an error) or a panic with a payload.
* The goroutine body of `(*task).Run` (task.go lines 56-96) is translated as
  `execLoop` (the `dig` loop, with the context polled before every step) and
  `finishGoroutine` (the deferred `recover` block that classifies a panic
  payload and the channel operations on each exit path).
* The caller-side `select` (task.go lines 98-105) is nondeterministic, and
  `Task.Run` returns the full list of results reachable under some schedule.
  Nothing synchronizes the caller into the `select` before the goroutine runs,
  and the deferred function closes both channels on every exit path, so after
  the goroutine exits every channel case is ready (a closed channel receives
  its zero value); a `select` that begins with several ready cases picks
  uniformly at random among them, while a `select` already blocked is
  completed by the first channel operation (or `ctx.Done()` close) that
  reaches it.  `caseReady` and `caseResult` spell out the ready-case
  mechanics of the `select` at such an entry instant.
* `Then` (task.go lines 109-122) is translated twice: `Task.Then` on pure
  chain values, and `thenH` on an explicit heap (addresses into a list of
  nodes, allocation appends, field assignment is `List.set`), which makes the
  non-mutation / fresh-copy contract of `Then` expressible.
-/

namespace Grace

/-- Model of a Go `error` value.  `contextCanceled` and
`contextDeadlineExceeded` are the two sentinel errors a `context.Context`
reports; `errorsNew s` is the value produced by `errors.New(s)`; `fmtErrorf s`
is the value produced by `fmt.Errorf` with formatted output `s`; `custom`
covers arbitrary caller-defined error values. -/
inductive GoError where
  | contextCanceled
  | contextDeadlineExceeded
  | errorsNew (s : String)
  | fmtErrorf (s : String)
  | custom (id : Nat) (s : String)
deriving DecidableEq, Repr

/-- The message text carried by a `GoError` (Go `Error()`). -/
def GoError.message : GoError → String
  | .contextCanceled => "context canceled"
  | .contextDeadlineExceeded => "context deadline exceeded"
  | .errorsNew s => s
  | .fmtErrorf s => s
  | .custom _ s => s

/-- A non-nil panic payload (`interface{}` value), as distinguished by the
type switch in the recover block of task.go lines 59-67: an error value, a
string, or anything else (carried here by its `%+v` formatted text, since the
payload is otherwise opaque to the package). -/
inductive PanicPayload where
  | err (e : GoError)
  | str (s : String)
  | other (formatted : String)
deriving DecidableEq, Repr

/-- Translation of the payload classification in the recover block
(task.go lines 61-67): an error payload is sent as-is, a string payload goes
through `errors.New`, anything else through `fmt.Errorf("%+v", p)`. -/
def classify : PanicPayload → GoError
  | .err e => e
  | .str s => .errorsNew s
  | .other f => .fmtErrorf f

/-- How one invocation of a step terminates: normal return of `nil`, normal
return of a non-nil error, or a panic. -/
inductive StepRet where
  | ok
  | fail (e : GoError)
  | panics (p : PanicPayload)
deriving DecidableEq, Repr

/-- Model of a Go `Step` (`func() error`) for a single run: the events the
step emits (its observable side effects, in order, up to its termination) and
how it terminates. -/
structure Step where
  events : List Nat
  ret : StepRet
deriving DecidableEq, Repr

/-- Model of a Go `func()` action as taken by `WithNoErr`: it emits events and
either returns or panics (it has no error channel of its own). -/
structure GoAction where
  events : List Nat
  raises : Option PanicPayload
deriving DecidableEq, Repr

/-- The chain data structure (struct `task`, task.go lines 48-51): a node
holds a step and either no successor (`next == nil`) or a successor task. -/
inductive Task where
  | last (step : Step)
  | cons (step : Step) (next : Task)
deriving DecidableEq, Repr

/-- Translation of `(*task).Next` (task.go lines 128-130). -/
def Task.next : Task → Option Task
  | .last _ => none
  | .cons _ n => some n

/-- Translation of `(*task).Step` (task.go lines 124-126). -/
def Task.stepOf : Task → Step
  | .last s => s
  | .cons s _ => s

/-- The steps of a chain, head first (the order the `dig` loop visits them). -/
def chainSteps : Task → List Step
  | .last s => [s]
  | .cons s t => s :: chainSteps t

/-- The events emitted by invoking the given steps in order. -/
def eventsOf : List Step → List Nat
  | [] => []
  | s :: rest => s.events ++ eventsOf rest

/-- The substituted step for `With(nil)` (task.go line 29):
`func() error { return nil }` emits nothing and returns `nil`. -/
def noopStep : Step := ⟨[], .ok⟩

/-- Translation of `With` (task.go lines 27-32): a nil step is replaced by the
no-op step, and the result is a single node with no successor. -/
def With : Option Step → Task
  | none => .last noopStep
  | some s => .last s

/-- Translation of `WithNoErr` (task.go lines 35-43): a nil action is replaced
by `func() {}`, and the action is wrapped as `func() error { step(); return
nil }` — so the wrapped step emits the action's events and returns `nil`,
unless the action panics, in which case the wrapper panics with the same
payload (the `return nil` is never reached). -/
def WithNoErr (action : Option GoAction) : Task :=
  let act := action.getD ⟨[], none⟩
  With (some ⟨act.events,
    match act.raises with
    | some p => .panics p
    | none => .ok⟩)

/-- Model of the context for one run.  The `dig` loop polls `ctx.Err()` once
before each step; instant `i` is the `i`-th poll.  `firesAt = none` means the
context never fires; `firesAt = some k` means the context fires between poll
`k - 1` and poll `k` of the loop's timeline (before poll `0` when `k = 0`),
and `reason` is what `ctx.Err()` returns once fired. -/
structure Ctx where
  firesAt : Option Nat
  reason : GoError
deriving DecidableEq, Repr

/-- Whether the context has fired by poll instant `i` (monotone in `i`). -/
def Ctx.firedBy (c : Ctx) (i : Nat) : Bool :=
  match c.firesAt with
  | none => false
  | some k => decide (k ≤ i)

/-- How the goroutine's `dig` loop exits (task.go lines 73-95): an early
`return` because `ctx.Err() != nil` (nothing sent), a step error sent on
`errChan`, a panic escaping to the deferred recover, or `done <- struct{}{}`
after every step returned `nil`. -/
inductive LoopOutcome where
  | canceled
  | sentErr (e : GoError)
  | raised (p : PanicPayload)
  | success
deriving DecidableEq, Repr

/-- Result of the `dig` loop: how it exited, the events emitted so far, and
the steps invoked (each `step()` call), in order. -/
structure LoopRes where
  out : LoopOutcome
  trace : List Nat
  invoked : List Step
deriving DecidableEq, Repr

/-- Translation of the `dig` loop (task.go lines 73-95), with `i` the index of
the next `ctx.Err()` poll: poll the context; if fired, return; otherwise
invoke the node's step; on a non-nil error send it and stop; on a panic the
payload escapes to the deferred recover; otherwise continue with the
successor, or signal success if there is none. -/
def execLoop (c : Ctx) : Task → Nat → LoopRes
  | .last s, i =>
    if c.firedBy i then ⟨.canceled, [], []⟩
    else
      match s.ret with
      | .panics p => ⟨.raised p, s.events, [s]⟩
      | .fail e => ⟨.sentErr e, s.events, [s]⟩
      | .ok => ⟨.success, s.events, [s]⟩
  | .cons s t, i =>
    if c.firedBy i then ⟨.canceled, [], []⟩
    else
      match s.ret with
      | .panics p => ⟨.raised p, s.events, [s]⟩
      | .fail e => ⟨.sentErr e, s.events, [s]⟩
      | .ok =>
        let r := execLoop c t (i + 1)
        ⟨r.out, s.events ++ r.trace, s :: r.invoked⟩

/-- What is observable on the two channels after the goroutine exits: a value
on `errChan`, a value on `done`, or both channels merely closed (the
`ctx.Err()` early-return path sends nothing before the deferred closes). -/
inductive ChanMsg where
  | errMsg (e : GoError)
  | doneMsg
  | closedOnly
deriving DecidableEq, Repr

/-- How the goroutine terminates as seen by the runtime: it exits normally
having produced channel state, or an unrecovered panic crashes the program.
The deferred recover (task.go lines 58-71) is what rules the second case out. -/
inductive GoroutineExit where
  | sent (m : ChanMsg)
  | crashed (p : PanicPayload)
deriving DecidableEq, Repr

/-- Translation of the deferred function (task.go lines 58-71) applied to the
loop's exit: a panic payload is recovered, classified and sent on `errChan`
(so it never crashes); the other paths leave the channel state the loop
produced.  On every path both channels are closed afterwards. -/
def finishGoroutine : LoopOutcome → GoroutineExit
  | .raised p => .sent (.errMsg (classify p))
  | .sentErr e => .sent (.errMsg e)
  | .success => .sent .doneMsg
  | .canceled => .sent .closedOnly

/-- Translation of `(*task).Run` (task.go lines 54-106): the list of return
values reachable under some schedule.  The goroutine's deferred function
closes BOTH channels on every exit path (task.go lines 69-70), so once the
goroutine has exited, every channel case of the `select` is ready: `errChan`
holds its buffered error or is closed (receiving then yields the zero value
`nil`), and `done` holds its buffered value or is closed (its case always
returns `nil`).  The caller is not synchronized into the `select` before the
goroutine runs, so two kinds of schedule are reachable: the caller blocks in
the `select` early and is completed by the first channel operation (or by the
`ctx.Done()` close), or the caller reaches the `select` only after events have
made several cases ready, and Go then chooses uniformly at random among them.
Hence, per exit path:

* `errMsg e` (step error, or classified recovered panic): `some e` when the
  buffered send completes a blocked `select`; `none` when the `select` begins
  after the goroutine exited and picks the closed `done` case.
* `doneMsg` (all steps returned `nil`): every ready channel case yields `nil`.
* `closedOnly` (loop returned at a `ctx.Err()` poll, nothing sent): every
  channel case receives from a closed channel and yields `nil`.

If the context ever fires, `ctx.Done()` can additionally win the race at any
point, returning `ctx.Err()`.  An unrecovered panic would crash the program
and produce no result at all; `finishGoroutine` never takes that path. -/
def Task.Run (t : Task) (c : Ctx) : List (Option GoError) :=
  let r := execLoop c t 0
  let chanResults : List (Option GoError) :=
    match finishGoroutine r.out with
    | .crashed _ => []
    | .sent (.errMsg e) => [some e, none]
    | .sent .doneMsg => [none]
    | .sent .closedOnly => [none]
  match c.firesAt with
  | none => chanResults
  | some _ => some c.reason :: chanResults

/-- The three cases of the `select` (task.go lines 98-105). -/
inductive SelCase where
  | ctxCase
  | errCase
  | doneCase
deriving DecidableEq, Repr

/-- Readiness of each `select` case when the statement begins evaluation after
the goroutine has already exited: `ctx.Done()` is ready iff the context has
fired; after the goroutine exits, `errChan` and `done` each hold either a
buffered value or are closed, so both receives are ready.  The Go
specification picks uniformly at random among the ready cases. -/
def caseReady (ctxFired : Bool) : SelCase → Bool
  | .ctxCase => ctxFired
  | .errCase => true
  | .doneCase => true

/-- The value `Run` returns if the `select` commits to the given case, with
`m` the channel state the goroutine left behind: the context case returns
`ctx.Err()`; the `errChan` case returns the buffered error, or `nil` when the
channel is closed without a value (the zero value of `error`); the `done`
case always returns `nil`. -/
def caseResult (reason : GoError) (m : ChanMsg) : SelCase → Option GoError
  | .ctxCase => some reason
  | .errCase =>
    match m with
    | .errMsg e => some e
    | .doneMsg => none
    | .closedOnly => none
  | .doneCase => none

/-- Translation of `(*task).Then` (task.go lines 109-122) on chain values:
copy the node; if the copy's successor slot is empty, link `that` there,
otherwise recursively chain the successor with `that`. -/
def Task.Then : Task → Task → Task
  | .last s, that => .cons s that
  | .cons s n, that => .cons s (n.Then that)

/-- A heap node: the `step` and `next` fields of struct `task`, with `next`
an address or `nil`. -/
structure HNode where
  step : Step
  next : Option Nat
deriving DecidableEq, Repr

/-- A heap of task nodes: the address of a node is its index, `&task{...}`
allocation appends, and field assignment is `List.set`. -/
abbrev Heap := List HNode

/-- Translation of `(*task).Then` (task.go lines 109-122) at the heap level,
with `fuel` bounding the recursion depth (a well-formed chain is finite and
acyclic).  `cp := &task{step: t.step, next: t.next}` allocates a copy of the
current node; then either `cp.next = that` (assignment to the fresh node) or
`cp.next = cp.next.Then(that)` after the recursive call.  Returns the heap
after the call and the address of the copy. -/
def thenH : Nat → Heap → Nat → Nat → Option (Heap × Nat)
  | 0, _, _, _ => none
  | fuel + 1, h, t, that =>
    match h[t]? with
    | none => none
    | some tn =>
      let cpAddr := h.length
      let h1 := h ++ [tn]
      match tn.next with
      | none => some (h1.set cpAddr ⟨tn.step, some that⟩, cpAddr)
      | some nx =>
        match thenH fuel h1 nx that with
        | none => none
        | some (h2, r) => some (h2.set cpAddr ⟨tn.step, some r⟩, cpAddr)

/-- Walk a chain in the heap from an address, following `next` as
`(*task).Next` does, collecting the chain as a pure `Task` together with the
list of addresses visited.  `fuel` bounds the walk. -/
def chainWalk : Nat → Heap → Nat → Option (Task × List Nat)
  | 0, _, _ => none
  | fuel + 1, h, a =>
    match h[a]? with
    | none => none
    | some n =>
      match n.next with
      | none => some (.last n.step, [a])
      | some nx =>
        match chainWalk fuel h nx with
        | none => none
        | some (t, L) => some (.cons n.step t, a :: L)

/-- A concrete three-node heap used to exercise the heap-level `Then`: the
chain at address 0 is node 0 (events `[1]`) then node 1 (events `[2]`); the
chain at address 2 is the single node 2 (events `[3]`). -/
def heapW : Heap := [⟨⟨[1], .ok⟩, some 1⟩, ⟨⟨[2], .ok⟩, none⟩, ⟨⟨[3], .ok⟩, none⟩]

/-- The heap produced by chaining address 0 with address 2 in `heapW`: the two
old spine nodes are copied to fresh addresses 3 and 4, with the copy of the
tail node relinked to address 2; addresses 0, 1, 2 are untouched. -/
def heapW2 : Heap := heapW ++ [⟨⟨[1], .ok⟩, some 4⟩, ⟨⟨[2], .ok⟩, some 2⟩]

-- Helper lemmas about the execution loop.

theorem firedBy_none (c : Ctx) (hc : c.firesAt = none) (i : Nat) :
    c.firedBy i = false := by
  simp [Ctx.firedBy, hc]

/-- C1 (refuted in its only-if direction; root cause shared with C4): on a
single-step chain whose step returns a non-nil error, `nil` is nevertheless a
reachable result of `Run`: the deferred closes (task.go lines 69-70) leave
`done` closed on the error path too, so a `select` entered after the goroutine
exits sees the closed `done` case ready alongside the buffered error and may
pick it, returning `nil` although a step failed.  The if direction is intact:
a chain of `nil`-returning steps invokes every step and yields `[none]`
only. -/
theorem run_nil_reachable_despite_failure :
    Task.Run (With (some ⟨[1], .fail (.errorsNew "x1")⟩)) ⟨none, GoError.contextCanceled⟩
        = [some (.errorsNew "x1"), none] ∧
    none ∈ Task.Run (With (some ⟨[1], .fail (.errorsNew "x1")⟩))
        ⟨none, GoError.contextCanceled⟩ ∧
    ¬ (∀ s ∈ chainSteps (With (some ⟨[1], .fail (.errorsNew "x1")⟩)), s.ret = .ok) ∧
    Task.Run ((With (some ⟨[2], .ok⟩)).Then (With (some ⟨[3], .ok⟩)))
        ⟨none, GoError.contextCanceled⟩ = [none] ∧
    (execLoop ⟨none, GoError.contextCanceled⟩
        ((With (some ⟨[2], .ok⟩)).Then (With (some ⟨[3], .ok⟩))) 0).invoked
      = chainSteps ((With (some ⟨[2], .ok⟩)).Then (With (some ⟨[3], .ok⟩))) ∧
    caseReady false .errCase = true ∧
    caseReady false .doneCase = true ∧
    caseResult GoError.contextCanceled (.errMsg (.errorsNew "x1")) .doneCase = none := by
  decide

/-- C9: for every task and every context, the goroutine never exits by an
unrecovered panic (every fault is intercepted by the deferred recover and
converted into a message on the channels), so `Run` always resolves to an
error-or-nil value: its set of possible results is never empty. -/
theorem run_never_crashes (c : Ctx) (t : Task) :
    (∃ m, finishGoroutine (execLoop c t 0).out = .sent m) ∧ t.Run c ≠ [] := by
  constructor
  · cases ho : (execLoop c t 0).out with
    | canceled => exact ⟨.closedOnly, rfl⟩
    | sentErr e => exact ⟨.errMsg e, rfl⟩
    | raised p => exact ⟨.errMsg (classify p), rfl⟩
    | success => exact ⟨.doneMsg, rfl⟩
  · cases ho : (execLoop c t 0).out <;>
      cases hf : c.firesAt <;>
        simp [Task.Run, ho, hf, finishGoroutine]

/-- Witness for C9 at a concrete task whose only step panics, under a firing
context: the goroutine still exits by a channel send and a result exists. -/
theorem run_never_crashes_witness :
    (∃ m, finishGoroutine
        (execLoop ⟨some 2, GoError.contextDeadlineExceeded⟩
          (With (some ⟨[1], .panics (.str "boom")⟩)) 0).out = .sent m) ∧
    Task.Run (With (some ⟨[1], .panics (.str "boom")⟩))
        ⟨some 2, GoError.contextDeadlineExceeded⟩ ≠ [] :=
  run_never_crashes ⟨some 2, GoError.contextDeadlineExceeded⟩
    (With (some ⟨[1], .panics (.str "boom")⟩))

/-- C8: `With(nil)` and `WithNoErr(nil)` each produce a single-node task
whose run, under a context that never fires, returns `nil`, emits no events,
and finishes the loop by the success path (no panic is ever raised). -/
theorem with_nil_noop_success (c : Ctx) (hc : c.firesAt = none) :
    (With none).Run c = [none] ∧ (WithNoErr none).Run c = [none] ∧
    (execLoop c (With none) 0).trace = [] ∧
    (execLoop c (WithNoErr none) 0).trace = [] ∧
    (execLoop c (With none) 0).out = .success ∧
    (execLoop c (WithNoErr none) 0).out = .success ∧
    (chainSteps (With none)).length = 1 ∧
    (chainSteps (WithNoErr none)).length = 1 := by
  have h0 : c.firedBy 0 = false := firedBy_none c hc 0
  refine ⟨?_, ?_, ?_, ?_, ?_, ?_, rfl, rfl⟩ <;>
    simp [Task.Run, With, WithNoErr, noopStep, execLoop, h0, hc, finishGoroutine,
      chainSteps]

/-- Witness for C8 at a concrete never-firing context. -/
theorem with_nil_noop_success_witness :
    (With none).Run ⟨none, GoError.contextCanceled⟩ = [none] ∧
    (WithNoErr none).Run ⟨none, GoError.contextCanceled⟩ = [none] ∧
    (execLoop ⟨none, GoError.contextCanceled⟩ (With none) 0).trace = [] ∧
    (execLoop ⟨none, GoError.contextCanceled⟩ (WithNoErr none) 0).trace = [] ∧
    (execLoop ⟨none, GoError.contextCanceled⟩ (With none) 0).out = .success ∧
    (execLoop ⟨none, GoError.contextCanceled⟩ (WithNoErr none) 0).out = .success ∧
    (chainSteps (With none)).length = 1 ∧
    (chainSteps (WithNoErr none)).length = 1 :=
  with_nil_noop_success ⟨none, GoError.contextCanceled⟩ rfl

/-- C2 (refuted for the returned value; the stop-at-first-failure part
holds): on a chain whose middle step fails, the loop invokes exactly the steps
up to and including the failing one — nothing after it ever runs — but the
reachable results of `Run` are the failing step error AND `nil`: once the
goroutine exits, `errChan` (buffered error, then closed) and `done` (closed
empty, task.go lines 69-70) are both ready, and a `select` entered at that
point picks uniformly among them, so `Run` can return `nil` instead of the
exact error the claim promises. -/
theorem run_error_not_guaranteed :
    Task.Run ((With (some ⟨[1], .ok⟩)).Then
        ((With (some ⟨[2], .fail (.custom 7 "boom")⟩)).Then (With (some ⟨[3], .ok⟩))))
        ⟨none, GoError.contextCanceled⟩
      = [some (.custom 7 "boom"), none] ∧
    (execLoop ⟨none, GoError.contextCanceled⟩
        ((With (some ⟨[1], .ok⟩)).Then
          ((With (some ⟨[2], .fail (.custom 7 "boom")⟩)).Then (With (some ⟨[3], .ok⟩)))) 0).invoked
      = [⟨[1], .ok⟩, ⟨[2], .fail (.custom 7 "boom")⟩] ∧
    caseResult GoError.contextCanceled (.errMsg (.custom 7 "boom")) .errCase
        = some (.custom 7 "boom") ∧
    caseResult GoError.contextCanceled (.errMsg (.custom 7 "boom")) .doneCase = none ∧
    (none : Option GoError) ≠ some (.custom 7 "boom") := by
  decide

/-- C3 (refuted for the returned value; the classification itself is as
claimed): a step panicking with the string payload `"simpleton"` is recovered
and classified to the `errors.New` error carrying that text; an error payload
is preserved identity-intact (shown for the sentinel `context.Canceled`) and
any other payload goes through `fmt.Errorf`; execution stops at the panicking
step.  But after the recover sends the classified error the deferred closes
run, so a `select` entered after the goroutine exits sees the closed `done`
case ready too and `Run` can return `nil` instead of the classified error. -/
theorem run_classified_error_not_guaranteed :
    Task.Run (WithNoErr (some ⟨[1], some (.str "simpleton")⟩))
        ⟨none, GoError.contextCanceled⟩
      = [some (classify (.str "simpleton")), none] ∧
    (execLoop ⟨none, GoError.contextCanceled⟩
        (WithNoErr (some ⟨[1], some (.str "simpleton")⟩)) 0).invoked
      = [⟨[1], .panics (.str "simpleton")⟩] ∧
    classify (.str "simpleton") = .errorsNew "simpleton" ∧
    (classify (.str "simpleton")).message = "simpleton" ∧
    classify (.err GoError.contextCanceled) = GoError.contextCanceled ∧
    classify (.other "obj") = .fmtErrorf "obj" ∧
    caseResult GoError.contextCanceled (.errMsg (classify (.str "simpleton"))) .doneCase
        = none ∧
    (none : Option GoError) ≠ some (classify (.str "simpleton")) := by
  decide

/-- C4 (refuted, see the code comment at task.go line 99): when the chain has
already completed successfully (the goroutine sent on `done`) and the context
has also fired by the time the `select` begins evaluation, both the
`ctx.Done()` case and the `done` case are ready; the Go specification then
chooses uniformly at random among the ready cases, so the `select` may commit
to the `done` case and `Run` returns `nil` — not the cancellation error the
claim (and the comment in the source) promise. -/
theorem select_cancellation_not_prioritized :
    finishGoroutine (execLoop ⟨some 1, GoError.contextCanceled⟩ (With none) 0).out
        = .sent .doneMsg ∧
    caseReady true .doneCase = true ∧
    caseReady true .ctxCase = true ∧
    caseResult GoError.contextCanceled .doneMsg .doneCase = none ∧
    caseResult GoError.contextCanceled .doneMsg .ctxCase
        = some GoError.contextCanceled ∧
    (none : Option GoError) ≠ some GoError.contextCanceled := by
  decide

theorem then_assoc_eq (a b c : Task) :
    (a.Then b).Then c = a.Then (b.Then c) := by
  induction a with
  | last s => rfl
  | cons s n ih => simp [Task.Then, ih]

/-- C5: `Then` is associative with respect to execution: both associations
produce the very same chain, hence the same step sequence and the same run
results under every context. -/
theorem then_exec_assoc (a b c : Task) (ctx : Ctx) :
    (a.Then b).Then c = a.Then (b.Then c) ∧
    chainSteps ((a.Then b).Then c) = chainSteps (a.Then (b.Then c)) ∧
    ((a.Then b).Then c).Run ctx = (a.Then (b.Then c)).Run ctx := by
  refine ⟨then_assoc_eq a b c, ?_, ?_⟩ <;> rw [then_assoc_eq]

theorem chainSteps_then (a b : Task) :
    chainSteps (a.Then b) = chainSteps a ++ chainSteps b := by
  induction a with
  | last s => rfl
  | cons s n ih => simp [Task.Then, chainSteps, ih]

/-- C10: `Then` is a concatenation homomorphism on step sequences; `With` and
`WithNoErr` build single nodes with no successor; chain length is additive
under `Then`. -/
theorem then_chain_concat_hom (a b : Task) (s : Option Step) (f : Option GoAction) :
    chainSteps (a.Then b) = chainSteps a ++ chainSteps b ∧
    (With s).next = none ∧ (WithNoErr f).next = none ∧
    (chainSteps (a.Then b)).length = (chainSteps a).length + (chainSteps b).length := by
  refine ⟨chainSteps_then a b, ?_, rfl, by rw [chainSteps_then]; exact List.length_append _ _⟩
  cases s <;> rfl

theorem execLoop_invoked_length (c : Ctx) :
    ∀ (t : Task) (i j : Nat), c.firedBy (i + j) = true →
      (execLoop c t i).invoked.length ≤ j := by
  intro t
  induction t with
  | last s =>
    intro i j hf
    by_cases hi : c.firedBy i = true
    · simp [execLoop, hi]
    · cases j with
      | zero => rw [Nat.add_zero] at hf; exact absurd hf hi
      | succ j2 =>
        cases hs : s.ret <;> simp [execLoop, hi, hs]
  | cons s t ih =>
    intro i j hf
    by_cases hi : c.firedBy i = true
    · simp [execLoop, hi]
    · cases j with
      | zero => rw [Nat.add_zero] at hf; exact absurd hf hi
      | succ j2 =>
        have hrec := ih (i + 1) j2 (by
          have : i + 1 + j2 = i + (j2 + 1) := by omega
          rw [this]; exact hf)
        cases hs : s.ret <;> simp [execLoop, hi, hs]
        omega

theorem execLoop_invoked_prefix (c : Ctx) :
    ∀ (t : Task) (i : Nat),
      ∃ rest, chainSteps t = (execLoop c t i).invoked ++ rest := by
  intro t
  induction t with
  | last s =>
    intro i
    by_cases hi : c.firedBy i = true
    · exact ⟨[s], by simp [execLoop, hi, chainSteps]⟩
    · cases hs : s.ret <;>
        exact ⟨[], by simp [execLoop, hi, hs, chainSteps]⟩
  | cons s t ih =>
    intro i
    by_cases hi : c.firedBy i = true
    · exact ⟨s :: chainSteps t, by simp [execLoop, hi, chainSteps]⟩
    · cases hs : s.ret with
      | ok =>
        obtain ⟨rest, hrest⟩ := ih (i + 1)
        exact ⟨rest, by simp [execLoop, hi, hs, chainSteps, hrest]⟩
      | fail e =>
        exact ⟨chainSteps t, by simp [execLoop, hi, hs, chainSteps]⟩
      | panics p =>
        exact ⟨chainSteps t, by simp [execLoop, hi, hs, chainSteps]⟩

theorem execLoop_trace_eventsOf (c : Ctx) :
    ∀ (t : Task) (i : Nat),
      (execLoop c t i).trace = eventsOf (execLoop c t i).invoked := by
  intro t
  induction t with
  | last s =>
    intro i
    by_cases hi : c.firedBy i = true
    · simp [execLoop, hi, eventsOf]
    · cases hs : s.ret <;>
        simp [execLoop, hi, hs, eventsOf]
  | cons s t ih =>
    intro i
    by_cases hi : c.firedBy i = true
    · simp [execLoop, hi, eventsOf]
    · cases hs : s.ret <;>
        simp [execLoop, hi, hs, eventsOf, ih (i + 1)]

/-- C7: cancellation is polled immediately before each node's step: if the
context has fired by the poll preceding the `j`-th node (poll index `i + j`
when the loop starts at poll `i`), then at most the first `j` steps are ever
invoked — the `j`-th node's step never starts.  The invoked steps are always
an initial segment of the chain, and the emitted events are exactly the events
of the invoked (completed) steps, in order — partial progress is kept, and a
step, once invoked, runs to its own termination. -/
theorem cancel_checked_before_each_step (c : Ctx) (t : Task) (i j : Nat)
    (hf : c.firedBy (i + j) = true) :
    (execLoop c t i).invoked.length ≤ j ∧
    (∃ rest, chainSteps t = (execLoop c t i).invoked ++ rest) ∧
    (execLoop c t i).trace = eventsOf (execLoop c t i).invoked :=
  ⟨execLoop_invoked_length c t i j hf, execLoop_invoked_prefix c t i,
    execLoop_trace_eventsOf c t i⟩

/-- Witness for C7: a context firing before the second poll of a two-step
chain. -/
theorem cancel_checked_before_each_step_witness :
    (execLoop ⟨some 1, GoError.contextCanceled⟩
        ((With (some ⟨[1], .ok⟩)).Then (With (some ⟨[2], .ok⟩))) 0).invoked.length ≤ 1 ∧
    (∃ rest, chainSteps ((With (some ⟨[1], .ok⟩)).Then (With (some ⟨[2], .ok⟩)))
        = (execLoop ⟨some 1, GoError.contextCanceled⟩
            ((With (some ⟨[1], .ok⟩)).Then (With (some ⟨[2], .ok⟩))) 0).invoked ++ rest) ∧
    (execLoop ⟨some 1, GoError.contextCanceled⟩
        ((With (some ⟨[1], .ok⟩)).Then (With (some ⟨[2], .ok⟩))) 0).trace
      = eventsOf (execLoop ⟨some 1, GoError.contextCanceled⟩
          ((With (some ⟨[1], .ok⟩)).Then (With (some ⟨[2], .ok⟩))) 0).invoked :=
  cancel_checked_before_each_step ⟨some 1, GoError.contextCanceled⟩
    ((With (some ⟨[1], .ok⟩)).Then (With (some ⟨[2], .ok⟩))) 0 1 (by decide)

-- Helper lemmas for the heap model.

theorem chainWalk_addr_lt :
    ∀ (f : Nat) (h : Heap) (a : Nat) (t : Task) (L : List Nat),
      chainWalk f h a = some (t, L) → ∀ b ∈ L, b < h.length := by
  intro f
  induction f with
  | zero => intro h a t L hw; exact absurd hw (by simp [chainWalk])
  | succ f ih =>
    intro h a t L hw b hb
    simp only [chainWalk] at hw
    cases hg : h[a]? with
    | none => simp [hg] at hw
    | some n =>
      simp only [hg] at hw
      have ha : a < h.length := (List.getElem?_eq_some.mp hg).1
      cases hn : n.next with
      | none =>
        simp only [hn] at hw
        simp at hw
        obtain ⟨-, rfl⟩ := hw
        rw [List.mem_singleton.mp hb]
        exact ha
      | some nx =>
        simp only [hn] at hw
        cases hwn : chainWalk f h nx with
        | none => simp [hwn] at hw
        | some pr =>
          obtain ⟨t2, L2⟩ := pr
          simp only [hwn] at hw
          simp at hw
          obtain ⟨-, rfl⟩ := hw
          rcases List.mem_cons.mp hb with rfl | hb2
          · exact ha
          · exact ih h nx t2 L2 hwn b hb2

theorem chainWalk_congr :
    ∀ (f : Nat) (h h2 : Heap) (a : Nat) (t : Task) (L : List Nat),
      chainWalk f h a = some (t, L) → (∀ b ∈ L, h2[b]? = h[b]?) →
      chainWalk f h2 a = some (t, L) := by
  intro f
  induction f with
  | zero => intro h h2 a t L hw; exact absurd hw (by simp [chainWalk])
  | succ f ih =>
    intro h h2 a t L hw hag
    simp only [chainWalk] at hw ⊢
    cases hg : h[a]? with
    | none => simp [hg] at hw
    | some n =>
      simp only [hg] at hw
      cases hn : n.next with
      | none =>
        simp only [hn] at hw
        simp at hw
        obtain ⟨rfl, rfl⟩ := hw
        have hg2 : h2[a]? = some n := by rw [hag a (by simp), hg]
        simp [hg2, hn]
      | some nx =>
        simp only [hn] at hw
        cases hwn : chainWalk f h nx with
        | none => simp [hwn] at hw
        | some pr =>
          obtain ⟨t2, L2⟩ := pr
          simp only [hwn] at hw
          simp at hw
          obtain ⟨rfl, rfl⟩ := hw
          have hg2 : h2[a]? = some n := by rw [hag a (by simp), hg]
          have hrec := ih h h2 nx t2 L2 hwn (fun b hb => hag b (by simp [hb]))
          simp [hg2, hn, hrec]

theorem thenH_frame :
    ∀ (fuel : Nat) (h : Heap) (t u : Nat) (h2 : Heap) (r : Nat),
      thenH fuel h t u = some (h2, r) →
      h.length ≤ h2.length ∧ (∀ a, a < h.length → h2[a]? = h[a]?) ∧
      h.length ≤ r ∧ r < h2.length := by
  intro fuel
  induction fuel with
  | zero => intro h t u h2 r hth; exact absurd hth (by simp [thenH])
  | succ fuel ih =>
    intro h t u h2 r hth
    simp only [thenH] at hth
    cases hg : h[t]? with
    | none => simp [hg] at hth
    | some tn =>
      simp only [hg] at hth
      cases hn : tn.next with
      | none =>
        simp only [hn] at hth
        simp at hth
        obtain ⟨rfl, rfl⟩ := hth
        refine ⟨by simp, fun a ha => List.getElem?_append_left ha, le_refl _, by simp⟩
      | some nx =>
        simp only [hn] at hth
        cases hin : thenH fuel (h ++ [tn]) nx u with
        | none => simp [hin] at hth
        | some pr =>
          obtain ⟨h2a, r2⟩ := pr
          simp only [hin] at hth
          simp at hth
          obtain ⟨rfl, rfl⟩ := hth
          obtain ⟨hlen1, hframe1, hr2, hr2lt⟩ := ih (h ++ [tn]) nx u h2a r2 hin
          have hlen0 : h.length + 1 ≤ h2a.length := by simpa using hlen1
          refine ⟨?_, ?_, le_refl _, ?_⟩
          · rw [List.length_set]; omega
          · intro a ha
            rw [List.getElem?_set_ne (by omega : h.length ≠ a),
              hframe1 a (by simp; omega)]
            exact List.getElem?_append_left ha
          · rw [List.length_set]; omega

theorem thenH_walk :
    ∀ (fuel : Nat) (h : Heap) (t u : Nat) (h2 : Heap) (r : Nat)
      (ga gb : Nat) (pt pu : Task) (Lt Lu : List Nat),
      thenH fuel h t u = some (h2, r) →
      chainWalk ga h t = some (pt, Lt) →
      chainWalk gb h u = some (pu, Lu) →
      ∃ g2 L2, chainWalk g2 h2 r = some (pt.Then pu, L2) ∧
        ∀ b ∈ L2, h.length ≤ b ∨ b ∈ Lu := by
  intro fuel
  induction fuel with
  | zero => intro h t u h2 r ga gb pt pu Lt Lu hth; exact absurd hth (by simp [thenH])
  | succ fuel ih =>
    intro h t u h2 r ga gb pt pu Lt Lu hth hwt hwu
    cases ga with
    | zero => exact absurd hwt (by simp [chainWalk])
    | succ ga0 =>
      simp only [thenH] at hth
      simp only [chainWalk] at hwt
      cases hg : h[t]? with
      | none => simp [hg] at hth
      | some tn =>
        simp only [hg] at hth hwt
        cases hn : tn.next with
        | none =>
          simp only [hn] at hth hwt
          simp at hth hwt
          obtain ⟨rfl, rfl⟩ := hth
          obtain ⟨rfl, -⟩ := hwt
          have hu2 : chainWalk gb (h ++ [⟨tn.step, some u⟩]) u = some (pu, Lu) :=
            chainWalk_congr gb h (h ++ [⟨tn.step, some u⟩]) u pu Lu hwu
              (fun b hb =>
                List.getElem?_append_left (chainWalk_addr_lt gb h u pu Lu hwu b hb))
          refine ⟨gb + 1, h.length :: Lu, ?_, ?_⟩
          · have hget : (h ++ [⟨tn.step, some u⟩])[h.length]?
                = some (⟨tn.step, some u⟩ : HNode) :=
              List.getElem?_concat_length h _
            simp [chainWalk, hget, hu2, Task.Then]
          · intro b hb
            rcases List.mem_cons.mp hb with rfl | hb2
            · exact Or.inl (le_refl _)
            · exact Or.inr hb2
        | some nx =>
          simp only [hn] at hth hwt
          cases hin : thenH fuel (h ++ [tn]) nx u with
          | none => simp [hin] at hth
          | some pr =>
            obtain ⟨h2a, r2⟩ := pr
            simp only [hin] at hth
            simp at hth
            obtain ⟨rfl, rfl⟩ := hth
            cases hwn : chainWalk ga0 h nx with
            | none => simp [hwn] at hwt
            | some pr2 =>
              obtain ⟨pt2, Lt2⟩ := pr2
              simp only [hwn] at hwt
              simp at hwt
              obtain ⟨rfl, -⟩ := hwt
              have hwn1 : chainWalk ga0 (h ++ [tn]) nx = some (pt2, Lt2) :=
                chainWalk_congr ga0 h (h ++ [tn]) nx pt2 Lt2 hwn
                  (fun b hb =>
                    List.getElem?_append_left (chainWalk_addr_lt ga0 h nx pt2 Lt2 hwn b hb))
              have hwu1 : chainWalk gb (h ++ [tn]) u = some (pu, Lu) :=
                chainWalk_congr gb h (h ++ [tn]) u pu Lu hwu
                  (fun b hb =>
                    List.getElem?_append_left (chainWalk_addr_lt gb h u pu Lu hwu b hb))
              obtain ⟨g2a, L2a, hwalk2, hprop2⟩ :=
                ih (h ++ [tn]) nx u h2a r2 ga0 gb pt2 pu Lt2 Lu hin hwn1 hwu1
              obtain ⟨hlen1, hframe1, hr2, hr2lt⟩ := thenH_frame fuel (h ++ [tn]) nx u h2a r2 hin
              have hlen0 : h.length + 1 ≤ h2a.length := by simpa using hlen1
              have hwalk3 : chainWalk g2a (h2a.set h.length ⟨tn.step, some r2⟩) r2
                  = some (pt2.Then pu, L2a) :=
                chainWalk_congr g2a h2a _ r2 (pt2.Then pu) L2a hwalk2
                  (fun b hb => by
                    rcases hprop2 b hb with hfr | hu
                    · exact List.getElem?_set_ne (by simp at hfr; omega : h.length ≠ b)
                    · have : b < h.length := chainWalk_addr_lt gb h u pu Lu hwu b hu
                      exact List.getElem?_set_ne (by omega : h.length ≠ b))
              refine ⟨g2a + 1, h.length :: L2a, ?_, ?_⟩
              · have hget : (h2a.set h.length ⟨tn.step, some r2⟩)[h.length]?
                    = some (⟨tn.step, some r2⟩ : HNode) := by
                  rw [List.getElem?_set_self (by omega : h.length < h2a.length)]
                simp [chainWalk, hget, hwalk3, Task.Then]
              · intro b hb
                rcases List.mem_cons.mp hb with rfl | hb2
                · exact Or.inl (le_refl _)
                · rcases hprop2 b hb2 with hfr | hu
                  · exact Or.inl (by simp at hfr; omega)
                  · exact Or.inr hu

/-- C6: evaluating `Then` on the heap leaves every pre-existing node — in
particular every node of either operand's chain — exactly as it was (their
addresses read the same in the new heap, and both operands' chains re-extract
unchanged, so the operands remain independently reusable); the returned head
is a freshly allocated node, and the chain it starts consists of fresh copies
of the first operand's nodes (every address on it is either fresh or one of
the second operand's own nodes) and executes the first operand's steps then
the second's. -/
theorem then_heap_frame (fuel : Nat) (h : Heap) (t u : Nat) (h2 : Heap) (r : Nat)
    (g : Nat) (pt pu : Task) (Lt Lu : List Nat)
    (hth : thenH fuel h t u = some (h2, r))
    (hwt : chainWalk g h t = some (pt, Lt))
    (hwu : chainWalk g h u = some (pu, Lu)) :
    (∀ a, a < h.length → h2[a]? = h[a]?) ∧
    h.length ≤ r ∧
    chainWalk g h2 t = some (pt, Lt) ∧
    chainWalk g h2 u = some (pu, Lu) ∧
    ∃ g2 L2, chainWalk g2 h2 r = some (pt.Then pu, L2) ∧
      ∀ b ∈ L2, h.length ≤ b ∨ b ∈ Lu := by
  obtain ⟨hlen, hframe, hr, -⟩ := thenH_frame fuel h t u h2 r hth
  refine ⟨hframe, hr, ?_, ?_,
    thenH_walk fuel h t u h2 r g g pt pu Lt Lu hth hwt hwu⟩
  · exact chainWalk_congr g h h2 t pt Lt hwt
      (fun b hb => hframe b (chainWalk_addr_lt g h t pt Lt hwt b hb))
  · exact chainWalk_congr g h h2 u pu Lu hwu
      (fun b hb => hframe b (chainWalk_addr_lt g h u pu Lu hwu b hb))

/-- Witness for C6 on the concrete heap `heapW`: chaining the two-node chain
at address 0 with the node at address 2 yields `heapW2` and head address 3. -/
theorem then_heap_frame_witness :
    (∀ a, a < heapW.length → heapW2[a]? = heapW[a]?) ∧
    heapW.length ≤ 3 ∧
    chainWalk 3 heapW2 0 = some (.cons ⟨[1], .ok⟩ (.last ⟨[2], .ok⟩), [0, 1]) ∧
    chainWalk 3 heapW2 2 = some (.last ⟨[3], .ok⟩, [2]) ∧
    ∃ g2 L2, chainWalk g2 heapW2 3
        = some ((Task.cons ⟨[1], .ok⟩ (.last ⟨[2], .ok⟩)).Then (.last ⟨[3], .ok⟩), L2) ∧
      ∀ b ∈ L2, heapW.length ≤ b ∨ b ∈ [2] :=
  then_heap_frame 3 heapW 0 2 heapW2 3 3 (.cons ⟨[1], .ok⟩ (.last ⟨[2], .ok⟩))
    (.last ⟨[3], .ok⟩) [0, 1] [2] (by decide) (by decide) (by decide)

end Grace
